import Mathlib

/-!
Shallow embedding of `update-headers.py`, a utility that rewrites
copyright/license headers at the top of `.ts`/`.tsx` and `.go` files.

Text is modelled as `List Char`.  A file's content is the decoded text the
Python script sees; `splitLines` models Python's `readlines` (each line keeps
its trailing newline, the final line may lack one), and writing a file is
modelled as concatenation of the written pieces.  Exceptions raised while
reading or decoding a file are modelled by an `Option (List Char)` read
result (`none` = the read raised, caught by the `try`/`except` in
`process_file`).
-/

/-- Characters stripped by Python's `str.strip()` (the ASCII whitespace
the script can meet in source files). -/
def pyIsSpace (c : Char) : Bool :=
  c == ' ' || c == '\t' || c == '\n' || c == '\r' || c == '\x0b' || c == '\x0c'

/-- Python `str.strip()`: drop whitespace from both ends. -/
def pyStrip (s : List Char) : List Char :=
  ((s.dropWhile pyIsSpace).reverse.dropWhile pyIsSpace).reverse

/-- Python `str.startswith`: the first list is an initial segment of the
second. -/
def hasPrefixChars : List Char → List Char → Bool
  | [], _ => true
  | _ :: _, [] => false
  | p :: ps, c :: cs => p == c && hasPrefixChars ps cs

/-- Python `str.endswith`: the first list is a final segment of the second. -/
def hasSuffixChars (s p : List Char) : Bool :=
  hasPrefixChars s.reverse p.reverse

/-- Python's `needle in hay` substring test. -/
def containsSub (needle : List Char) : List Char → Bool
  | [] => needle.isEmpty
  | c :: rest => hasPrefixChars needle (c :: rest) || containsSub needle rest

/-- Lower-case every character (used only to state the spec's
"case-insensitive substring" reading of header detection). -/
def toLowerChars (l : List Char) : List Char := l.map Char.toLower

/-- Helper for `splitLines`: accumulate the current (reversed) line while
scanning the text. -/
def splitLinesAux : List Char → List Char → List (List Char)
  | acc, [] => if acc.isEmpty then [] else [acc.reverse]
  | acc, c :: rest =>
      if c == '\n' then (acc.reverse ++ ['\n']) :: splitLinesAux [] rest
      else splitLinesAux (c :: acc) rest

/-- Python `readlines`: split after every newline, keeping it; the last line
may lack a newline; the empty text has no lines. -/
def splitLines (s : List Char) : List (List Char) := splitLinesAux [] s

/-- A line that is empty after stripping (the script's
`line.strip() == ''` test). -/
def blankLine (l : List Char) : Bool := (pyStrip l).isEmpty

/-- Decimal digit character. -/
def digitChar (d : Nat) : Char :=
  if d = 0 then '0' else if d = 1 then '1' else if d = 2 then '2'
  else if d = 3 then '3' else if d = 4 then '4' else if d = 5 then '5'
  else if d = 6 then '6' else if d = 7 then '7' else if d = 8 then '8'
  else '9'

/-- Fuelled decimal rendering of a natural number (embeds Python `str(int)`
for the year values the script prints). -/
def natToCharsAux : Nat → Nat → List Char → List Char
  | 0, _, acc => acc
  | fuel + 1, n, acc =>
      if n < 10 then digitChar n :: acc
      else natToCharsAux fuel (n / 10) (digitChar (n % 10) :: acc)

/-- Decimal rendering of a natural number, least digit last. -/
def natToChars (n : Nat) : List Char := natToCharsAux (n + 1) n []

/-! ## Configuration constants of the script -/

def COPYRIGHT_HOLDER : List Char := "s0up and the autobrr contributors".toList

def START_YEAR : Nat := 2025

/-- `COPYRIGHT_YEAR` as a function of the current year read from the clock:
`f"{START_YEAR}-{CURRENT_YEAR}" if CURRENT_YEAR > START_YEAR else
str(START_YEAR)`. -/
def COPYRIGHT_YEAR (currentYear : Nat) : List Char :=
  if START_YEAR < currentYear then
    natToChars START_YEAR ++ '-' :: natToChars currentYear
  else natToChars START_YEAR

def LICENSE : List Char := "GPL-2.0-or-later".toList

/-- The directory names `os.walk` must not descend into. -/
def EXCLUDED_DIRS : List (List Char) :=
  [".git".toList, "node_modules".toList, "dist".toList, "build".toList,
   "vendor".toList]

/-! ## Header templates (line by line, concatenated into the script's
f-string blobs) -/

def TS_HEADER_line1 : List Char := "/*".toList ++ ['\n']

def TS_HEADER_line2 (year : List Char) : List Char :=
  " * Copyright (c) ".toList ++ year ++ ", ".toList ++ COPYRIGHT_HOLDER ++
    ".".toList ++ ['\n']

def TS_HEADER_line3 : List Char :=
  " * SPDX-License-Identifier: ".toList ++ LICENSE ++ ['\n']

def TS_HEADER_line4 : List Char := " */".toList ++ ['\n']

/-- Header for TypeScript/TSX files (4 lines). -/
def TS_HEADER (year : List Char) : List Char :=
  TS_HEADER_line1 ++ TS_HEADER_line2 year ++ TS_HEADER_line3 ++ TS_HEADER_line4

def GO_HEADER_line1 (year : List Char) : List Char :=
  "// Copyright (c) ".toList ++ year ++ ", ".toList ++ COPYRIGHT_HOLDER ++
    ".".toList ++ ['\n']

def GO_HEADER_line2 : List Char :=
  "// SPDX-License-Identifier: ".toList ++ LICENSE ++ ['\n']

/-- Header for Go files (2 lines). -/
def GO_HEADER (year : List Char) : List Char :=
  GO_HEADER_line1 year ++ GO_HEADER_line2

/-! ## File-kind classification -/

/-- The two target file kinds. -/
inductive FileKind where
  | ts : FileKind
  | go : FileKind
deriving DecidableEq

/-- Whether the kind uses the block-comment (TypeScript) header. -/
def FileKind.isTS : FileKind → Bool
  | .ts => true
  | .go => false

/-- Lines a stale header of this kind occupies (`lines_to_remove`). -/
def linesToRemove : FileKind → Nat
  | .ts => 4
  | .go => 2

/-- The header text applied to a file of this kind. -/
def headerFor : FileKind → List Char → List Char
  | .ts, year => TS_HEADER year
  | .go, year => GO_HEADER year

/-- The header, line by line. -/
def headerLines : FileKind → List Char → List (List Char)
  | .ts, year => [TS_HEADER_line1, TS_HEADER_line2 year, TS_HEADER_line3,
                  TS_HEADER_line4]
  | .go, year => [GO_HEADER_line1 year, GO_HEADER_line2]

/-- The extension dispatch at the top of `process_file`:
`.ts`/`.tsx` → TypeScript kind, `.go` → Go kind, anything else → no kind. -/
def classifyB (file_path : List Char) : Option FileKind :=
  if hasSuffixChars ".ts".toList file_path ||
      hasSuffixChars ".tsx".toList file_path then some .ts
  else if hasSuffixChars ".go".toList file_path then some .go
  else none

/-! ## Header detection -/

/-- `has_copyright_header(lines, is_typescript)`: check whether the file
already has a copyright header. -/
def has_copyright_header (lines : List (List Char)) (is_typescript : Bool) :
    Bool :=
  if lines.isEmpty then false
  else if is_typescript then
    if 4 ≤ lines.length then
      hasPrefixChars "/*".toList (pyStrip (lines.headD [])) &&
        (lines.take 4).any (fun line =>
          containsSub "Copyright".toList line ||
            containsSub "copyright".toList line) &&
        (lines.take 4).any (fun line => containsSub "*/".toList line)
    else false
  else
    if 2 ≤ lines.length then
      (lines.take 2).any (fun line =>
        containsSub "Copyright".toList line ||
          containsSub "copyright".toList line)
    else false

/-! ## The per-file rewrite -/

/-- Console lines the script prints while handling one file. -/
inductive PyMsg where
  | checking : List Char → PyMsg
  | updatingHeader : List Char → PyMsg
  | addingHeader : List Char → PyMsg
  | error : List Char → PyMsg
deriving DecidableEq

/-- Result of `process_file`: the Python return value (`none` = `None`,
`some 0` = error, `some 1` = updated), the content written to disk
(`none` = the file was not (re)written), and the console log. -/
structure PFOut where
  ret : Option Nat
  written : Option (List Char)
  log : List PyMsg
deriving DecidableEq

/-- The body the rewrite keeps: the original lines, minus the stale header
when one is detected, minus leading blank lines. -/
def strippedBody (k : FileKind) (content : List Char) : List (List Char) :=
  let original_lines := splitLines content
  let remaining_lines :=
    if has_copyright_header original_lines k.isTS then
      original_lines.drop (linesToRemove k)
    else original_lines
  remaining_lines.dropWhile blankLine

/-- `process_file(file_path)`: determine the correct header and overwrite the
file.  `readData` is the text the read produced (`none` models an exception
while opening/reading/decoding, caught by the `except` branch). -/
def process_file (year : List Char) (file_path : List Char)
    (readData : Option (List Char)) : PFOut :=
  match classifyB file_path with
  | none => ⟨none, none, []⟩
  | some k =>
    match readData with
    | none => ⟨some 0, none, [.checking file_path, .error file_path]⟩
    | some content =>
      let original_lines := splitLines content
      let body := strippedBody k content
      let newContent := headerFor k year ++ '\n' :: body.flatten
      if has_copyright_header original_lines k.isTS then
        ⟨some 1, some newContent,
          [.checking file_path, .updatingHeader file_path]⟩
      else
        ⟨some 1, some newContent,
          [.checking file_path, .addingHeader file_path]⟩

/-- Python truthiness of `process_file`'s return value
(`if result: updated_count += result`). -/
def pyTruthy : Option Nat → Bool
  | none => false
  | some 0 => false
  | some (_ + 1) => true

/-- Status line printed in single-file mode. -/
inductive StatusMsg where
  | successfullyUpdated : StatusMsg
  | noUpdateNeeded : StatusMsg
deriving DecidableEq

/-- Single-file mode of `main`: process the one argument and report. -/
def mainSingle (year : List Char) (file_path : List Char)
    (readData : Option (List Char)) : PFOut × StatusMsg :=
  let r := process_file year file_path readData
  (r, if pyTruthy r.ret then .successfullyUpdated else .noUpdateNeeded)

/-- Full-tree mode loop of `main` over an enumerated file list: accumulate
`updated_count` and (as the model of the disk effects) the per-file written
contents. -/
def mainWalkFull (year : List Char)
    (files : List (List Char × Option (List Char))) :
    Nat × List (Option (List Char)) :=
  files.foldl
    (fun acc pf =>
      let r := process_file year pf.1 pf.2
      ((if pyTruthy r.ret then acc.1 + r.ret.getD 0 else acc.1),
        acc.2 ++ [r.written]))
    (0, [])

/-! ## Directory traversal -/

/-- A directory: named subdirectories and file names. -/
inductive DirTree where
  | node : List (List Char × DirTree) → List (List Char) → DirTree

/-- Walk a list of subdirectories, skipping the excluded names exactly as
`dirs[:] = [d for d in dirs if d not in EXCLUDED_DIRS]` prunes `os.walk`.
Each visited file is reported with the chain of directory names from the
root down to it. -/
def walkSubdirs : List (List Char × DirTree) → List (List (List Char) × List Char)
  | [] => []
  | (name, .node sd fs) :: rest =>
      (if EXCLUDED_DIRS.contains name then []
       else fs.map (fun f => ([name], f)) ++
         (walkSubdirs sd).map (fun cf => (name :: cf.1, cf.2))) ++
        walkSubdirs rest

/-- All files `os.walk('.')` visits under the tree after pruning, each with
its directory-name chain. -/
def walkVisited : DirTree → List (List (List Char) × List Char)
  | .node sd fs => fs.map (fun f => ([], f)) ++ walkSubdirs sd

/-- Join a directory chain and file name with `/`, as `os.path.join` does for
the single-argument path the user types. -/
def joinChain (chain : List (List Char)) (fname : List Char) : List Char :=
  (chain.map (fun d => d ++ ['/'])).flatten ++ fname

/-! ## Spec-side definitions (used only to compare the spec's words with the
code) -/

/-- Modelled from the spec's description of header detection (amended to the
exact substrings the code tests): block kind needs 4 lines, a stripped first
line starting with the open token, a line among the first 4 containing
"Copyright"/"copyright", and one containing the close token; line kind needs
2 lines and a "Copyright"/"copyright" line among the first 2. -/
def specHasHeader (lines : List (List Char)) (k : FileKind) : Bool :=
  match k with
  | .ts =>
      (if 4 ≤ lines.length then true else false) &&
        hasPrefixChars "/*".toList (pyStrip (lines.headD [])) &&
        (lines.take 4).any (fun line =>
          containsSub "Copyright".toList line ||
            containsSub "copyright".toList line) &&
        (lines.take 4).any (fun line => containsSub "*/".toList line)
  | .go =>
      (if 2 ≤ lines.length then true else false) &&
        (lines.take 2).any (fun line =>
          containsSub "Copyright".toList line ||
            containsSub "copyright".toList line)

/-! ## Lemmas: prefixes, substrings, suffixes -/

theorem hasPrefixChars_append (p a b : List Char)
    (h : hasPrefixChars p a = true) : hasPrefixChars p (a ++ b) = true := by
  induction p generalizing a with
  | nil => simp [hasPrefixChars]
  | cons x xs ih =>
    cases a with
    | nil => simp [hasPrefixChars] at h
    | cons c cs =>
      simp only [hasPrefixChars, Bool.and_eq_true, beq_iff_eq] at h ⊢
      exact ⟨h.1, ih cs (h.2)⟩

theorem hasPrefixChars_self (p b : List Char) :
    hasPrefixChars p (p ++ b) = true := by
  induction p with
  | nil => simp [hasPrefixChars]
  | cons x xs ih => simp [hasPrefixChars, ih]

theorem hasPrefixChars_cons_elim {x : Char} {xs b : List Char}
    (h : hasPrefixChars (x :: xs) b = true) :
    ∃ t, b = x :: t ∧ hasPrefixChars xs t = true := by
  cases b with
  | nil => simp [hasPrefixChars] at h
  | cons c cs =>
    simp only [hasPrefixChars, Bool.and_eq_true, beq_iff_eq] at h
    exact ⟨cs, by rw [h.1], h.2⟩

theorem containsSub_nil (hay : List Char) : containsSub [] hay = true := by
  cases hay <;> simp [containsSub, hasPrefixChars, List.isEmpty]

theorem containsSub_of_prefixed (nd hay : List Char)
    (h : hasPrefixChars nd hay = true) : containsSub nd hay = true := by
  cases hay with
  | nil =>
    cases nd with
    | nil => simp [containsSub, List.isEmpty]
    | cons x xs => simp [hasPrefixChars] at h
  | cons c cs => simp [containsSub, h]

theorem containsSub_append (nd a b : List Char)
    (h : containsSub nd a = true) : containsSub nd (a ++ b) = true := by
  induction a with
  | nil =>
    simp only [containsSub] at h
    have : nd = [] := by simpa [List.isEmpty_iff] using h
    subst this
    exact containsSub_nil b
  | cons c cs ih =>
    simp only [containsSub, Bool.or_eq_true] at h
    rcases h with h | h
    · have := hasPrefixChars_append nd (c :: cs) b h
      simpa [containsSub] using Or.inl this
    · simpa [containsSub] using Or.inr (ih h)

theorem hasSuffixChars_append (s p a : List Char)
    (h : hasSuffixChars s p = true) : hasSuffixChars s (a ++ p) = true := by
  unfold hasSuffixChars at h ⊢
  rw [List.reverse_append]
  exact hasPrefixChars_append _ _ _ h

theorem go_suffix_excl (p : List Char)
    (h : hasSuffixChars ".go".toList p = true) :
    hasSuffixChars ".ts".toList p = false ∧
      hasSuffixChars ".tsx".toList p = false := by
  unfold hasSuffixChars at h ⊢
  have hrev : hasPrefixChars ['o', 'g', '.'] p.reverse = true := h
  obtain ⟨t, ht, -⟩ := hasPrefixChars_cons_elim hrev
  rw [ht]
  constructor <;> simp [hasPrefixChars]

theorem classify_go (p : List Char)
    (h : hasSuffixChars ".go".toList p = true) : classifyB p = some .go := by
  obtain ⟨h1, h2⟩ := go_suffix_excl p h
  unfold classifyB
  rw [h1, h2, h]
  simp

theorem classify_ts (p : List Char)
    (h : hasSuffixChars ".ts".toList p = true ∨
      hasSuffixChars ".tsx".toList p = true) : classifyB p = some .ts := by
  unfold classifyB
  rcases h with h | h <;> rw [h] <;> simp

theorem classify_append (a f : List Char) (k : FileKind)
    (h : classifyB f = some k) : classifyB (a ++ f) = some k := by
  unfold classifyB at h
  by_cases h1 : hasSuffixChars ".ts".toList f = true
  · have hk : k = .ts := by
      rw [h1] at h
      simp at h
      exact h.symm
    subst hk
    exact classify_ts _ (Or.inl (hasSuffixChars_append _ _ a h1))
  · rw [Bool.not_eq_true] at h1
    by_cases h2 : hasSuffixChars ".tsx".toList f = true
    · have hk : k = .ts := by
        rw [h1, h2] at h
        simp at h
        exact h.symm
      subst hk
      exact classify_ts _ (Or.inr (hasSuffixChars_append _ _ a h2))
    · rw [Bool.not_eq_true] at h2
      rw [h1, h2] at h
      simp only [Bool.or_self, Bool.false_eq_true, if_false] at h
      by_cases h3 : hasSuffixChars ".go".toList f = true
      · have hk : k = .go := by
          rw [h3] at h
          simp at h
          exact h.symm
        subst hk
        exact classify_go _ (hasSuffixChars_append _ _ a h3)
      · rw [Bool.not_eq_true] at h3
        rw [h3] at h
        simp at h

/-! ## Lemmas: decimal rendering of years -/

theorem digitChar_ne_newline (d : Nat) : digitChar d ≠ '\n' := by
  unfold digitChar
  repeat' split
  all_goals decide

theorem mem_natToCharsAux (fuel n : Nat) (acc : List Char) (c : Char)
    (h : c ∈ natToCharsAux fuel n acc) :
    c ∈ acc ∨ ∃ d, c = digitChar d := by
  induction fuel generalizing n acc with
  | zero => exact Or.inl h
  | succ fuel ih =>
    unfold natToCharsAux at h
    split at h
    · rcases List.mem_cons.mp h with h | h
      · exact Or.inr ⟨n, h⟩
      · exact Or.inl h
    · rcases ih _ _ h with h | h
      · rcases List.mem_cons.mp h with h | h
        · exact Or.inr ⟨n % 10, h⟩
        · exact Or.inl h
      · exact Or.inr h

theorem newline_not_mem_natToChars (n : Nat) : '\n' ∉ natToChars n := by
  intro h
  rcases mem_natToCharsAux _ _ _ _ h with h | ⟨d, hd⟩
  · simp at h
  · exact digitChar_ne_newline d hd.symm

theorem newline_not_mem_year (cy : Nat) : '\n' ∉ COPYRIGHT_YEAR cy := by
  unfold COPYRIGHT_YEAR
  split
  · intro h
    rcases List.mem_append.mp h with h | h
    · exact newline_not_mem_natToChars _ h
    · rcases List.mem_cons.mp h with h | h
      · exact absurd h (by decide)
      · exact newline_not_mem_natToChars _ h
  · exact newline_not_mem_natToChars _

/-! ## Lemmas: line splitting (`readlines`) and joining (`writelines`) -/

/-- A line as `readlines` returns it when it is not the last: some text
without interior newlines, closed by one newline. -/
def isFullLine (l : List Char) : Prop :=
  ∃ core, l = core ++ ['\n'] ∧ '\n' ∉ core

/-- A final line that lacks its newline. -/
def isPartialLine (l : List Char) : Prop := l ≠ [] ∧ '\n' ∉ l

/-- The shape `readlines` guarantees: every line is full, except that the
last may be partial. -/
def validLineList : List (List Char) → Prop
  | [] => True
  | [l] => isFullLine l ∨ isPartialLine l
  | l :: ls => isFullLine l ∧ validLineList ls

theorem validLineList_cons {l : List Char} {ls : List (List Char)}
    (hl : isFullLine l) (hls : validLineList ls) :
    validLineList (l :: ls) := by
  cases ls with
  | nil => exact Or.inl hl
  | cons l' r => exact ⟨hl, hls⟩

theorem validLineList_tail {l : List Char} {ls : List (List Char)}
    (h : validLineList (l :: ls)) : validLineList ls := by
  cases ls with
  | nil => trivial
  | cons l' r => exact h.2

theorem validLineList_drop {ls : List (List Char)} (n : Nat)
    (h : validLineList ls) : validLineList (ls.drop n) := by
  induction n generalizing ls with
  | zero => exact h
  | succ n ih =>
    cases ls with
    | nil => trivial
    | cons l r => exact ih (validLineList_tail h)

theorem validLineList_dropWhile {p : List Char → Bool}
    {ls : List (List Char)} (h : validLineList ls) :
    validLineList (ls.dropWhile p) := by
  induction ls with
  | nil => trivial
  | cons l r ih =>
    rw [List.dropWhile_cons]
    split
    · exact ih (validLineList_tail h)
    · exact h

theorem splitLinesAux_cons (acc : List Char) (c : Char) (rest : List Char) :
    splitLinesAux acc (c :: rest) =
      if c == '\n' then (acc.reverse ++ ['\n']) :: splitLinesAux [] rest
      else splitLinesAux (c :: acc) rest := rfl

theorem splitLinesAux_newline (acc rest : List Char) :
    splitLinesAux acc ('\n' :: rest) =
      (acc.reverse ++ ['\n']) :: splitLinesAux [] rest := by
  simp [splitLinesAux]

theorem splitLinesAux_cons_ne {c : Char} (hc : c ≠ '\n')
    (acc rest : List Char) :
    splitLinesAux acc (c :: rest) = splitLinesAux (c :: acc) rest := by
  rw [splitLinesAux_cons, if_neg (by simpa using hc)]

theorem splitLinesAux_no_newline (s : List Char) (hs : '\n' ∉ s) :
    ∀ acc rest, splitLinesAux acc (s ++ rest) =
      splitLinesAux (s.reverse ++ acc) rest := by
  induction s with
  | nil => simp
  | cons c s' ih =>
    intro acc rest
    have hc : c ≠ '\n' := fun h => hs (h ▸ List.mem_cons_self c s')
    have hs' : '\n' ∉ s' := fun h => hs (List.mem_cons_of_mem c h)
    show splitLinesAux acc (c :: (s' ++ rest)) = _
    rw [splitLinesAux_cons_ne hc, ih hs' (c :: acc)]
    simp

theorem splitLines_full_append (l rest : List Char) (hl : isFullLine l) :
    splitLines (l ++ rest) = l :: splitLines rest := by
  obtain ⟨core, rfl, hcore⟩ := hl
  unfold splitLines
  rw [List.append_assoc, List.singleton_append,
    splitLinesAux_no_newline core hcore [] ('\n' :: rest),
    splitLinesAux_newline]
  simp

theorem splitLines_no_newline (s : List Char) (hs : '\n' ∉ s)
    (hne : s ≠ []) : splitLines s = [s] := by
  unfold splitLines
  rw [show s = s ++ [] by simp, splitLinesAux_no_newline s hs [] []]
  unfold splitLinesAux
  rw [if_neg (by simpa using hne)]
  simp

theorem valid_splitLinesAux (s : List Char) :
    ∀ acc : List Char, '\n' ∉ acc → validLineList (splitLinesAux acc s) := by
  induction s with
  | nil =>
    intro acc hacc
    unfold splitLinesAux
    split
    · trivial
    · rename_i hne
      refine Or.inr ⟨?_, by simpa using hacc⟩
      simpa [List.isEmpty_iff] using hne
  | cons c s' ih =>
    intro acc hacc
    by_cases hc : c = '\n'
    · subst hc
      rw [splitLinesAux_newline]
      refine validLineList_cons ⟨acc.reverse, rfl, by simpa using hacc⟩
        (ih [] (by simp))
    · rw [splitLinesAux_cons_ne hc]
      exact ih (c :: acc) (by
        intro h
        rcases List.mem_cons.mp h with h | h
        · exact hc h.symm
        · exact hacc h)

theorem valid_splitLines (s : List Char) : validLineList (splitLines s) :=
  valid_splitLinesAux s [] (by simp)

theorem splitLines_flatten (L : List (List Char)) (h : validLineList L) :
    splitLines L.flatten = L := by
  induction L with
  | nil => rfl
  | cons l ls ih =>
    cases ls with
    | nil =>
      rcases h with h | h
      · rw [List.flatten_cons, List.flatten_nil,
          splitLines_full_append l [] h]
        rfl
      · rw [List.flatten_cons, List.flatten_nil, List.append_nil,
          splitLines_no_newline l h.2 h.1]
    | cons l' r =>
      rw [List.flatten_cons, splitLines_full_append l _ h.1,
        ih (validLineList_tail h)]

/-! ## Lemmas: the header lines are well-formed lines -/

theorem not_mem_append_chars {a : Char} {l1 l2 : List Char}
    (h1 : a ∉ l1) (h2 : a ∉ l2) : a ∉ l1 ++ l2 := by
  intro h
  rcases List.mem_append.mp h with h | h
  · exact h1 h
  · exact h2 h

theorem fullLine_TS1 : isFullLine TS_HEADER_line1 :=
  ⟨"/*".toList, rfl, by decide⟩

theorem fullLine_TS2 (y : List Char) (hy : '\n' ∉ y) :
    isFullLine (TS_HEADER_line2 y) :=
  ⟨" * Copyright (c) ".toList ++ y ++ ", ".toList ++ COPYRIGHT_HOLDER ++
      ".".toList, rfl,
    not_mem_append_chars (not_mem_append_chars (not_mem_append_chars
      (not_mem_append_chars (by decide) hy) (by decide)) (by decide))
      (by decide)⟩

theorem fullLine_TS3 : isFullLine TS_HEADER_line3 :=
  ⟨" * SPDX-License-Identifier: ".toList ++ LICENSE, rfl, by decide⟩

theorem fullLine_TS4 : isFullLine TS_HEADER_line4 :=
  ⟨" */".toList, rfl, by decide⟩

theorem fullLine_GO1 (y : List Char) (hy : '\n' ∉ y) :
    isFullLine (GO_HEADER_line1 y) :=
  ⟨"// Copyright (c) ".toList ++ y ++ ", ".toList ++ COPYRIGHT_HOLDER ++
      ".".toList, rfl,
    not_mem_append_chars (not_mem_append_chars (not_mem_append_chars
      (not_mem_append_chars (by decide) hy) (by decide)) (by decide))
      (by decide)⟩

theorem fullLine_GO2 : isFullLine GO_HEADER_line2 :=
  ⟨"// SPDX-License-Identifier: ".toList ++ LICENSE, rfl, by decide⟩

theorem fullLine_blank : isFullLine ['\n'] := ⟨[], rfl, by simp⟩

theorem headerLines_flatten (k : FileKind) (y : List Char) :
    (headerLines k y).flatten = headerFor k y := by
  cases k <;>
    simp [headerLines, headerFor, TS_HEADER, GO_HEADER, List.append_assoc]

/-! ## Lemmas: shape of the content `process_file` writes -/

theorem process_file_target (y p c : List Char) (k : FileKind)
    (hk : classifyB p = some k) :
    process_file y p (some c) =
      ⟨some 1, some (headerFor k y ++ '\n' :: (strippedBody k c).flatten),
        [.checking p,
          if has_copyright_header (splitLines c) k.isTS then
            .updatingHeader p
          else .addingHeader p]⟩ := by
  unfold process_file
  rw [hk]
  dsimp only
  split <;> rfl

theorem process_file_skip (y p : List Char)
    (hk : classifyB p = none) (f : Option (List Char)) :
    process_file y p f = ⟨none, none, []⟩ := by
  unfold process_file
  rw [hk]

theorem process_file_readfail (y p : List Char) (k : FileKind)
    (hk : classifyB p = some k) :
    process_file y p none =
      ⟨some 0, none, [.checking p, .error p]⟩ := by
  unfold process_file
  rw [hk]

theorem valid_strippedBody (k : FileKind) (c : List Char) :
    validLineList (strippedBody k c) := by
  unfold strippedBody
  dsimp only
  apply validLineList_dropWhile
  split
  · exact validLineList_drop _ (valid_splitLines c)
  · exact valid_splitLines c

theorem splitLines_written (k : FileKind) (y : List Char) (hy : '\n' ∉ y)
    (B : List (List Char)) (hB : validLineList B) :
    splitLines (headerFor k y ++ '\n' :: B.flatten) =
      headerLines k y ++ ['\n'] :: B := by
  cases k
  · show splitLines (TS_HEADER y ++ '\n' :: B.flatten) = _
    unfold TS_HEADER
    rw [show ('\n' :: B.flatten) = ['\n'] ++ B.flatten from rfl]
    simp only [List.append_assoc]
    rw [splitLines_full_append _ _ fullLine_TS1,
      splitLines_full_append _ _ (fullLine_TS2 y hy),
      splitLines_full_append _ _ fullLine_TS3,
      splitLines_full_append _ _ fullLine_TS4,
      splitLines_full_append _ _ fullLine_blank,
      splitLines_flatten B hB]
    simp [headerLines]
  · show splitLines (GO_HEADER y ++ '\n' :: B.flatten) = _
    unfold GO_HEADER
    rw [show ('\n' :: B.flatten) = ['\n'] ++ B.flatten from rfl]
    simp only [List.append_assoc]
    rw [splitLines_full_append _ _ (fullLine_GO1 y hy),
      splitLines_full_append _ _ fullLine_GO2,
      splitLines_full_append _ _ fullLine_blank,
      splitLines_flatten B hB]
    simp [headerLines]

/-! ## Lemmas: dropWhile -/

theorem dropWhile_idem {α} (p : α → Bool) (l : List α) :
    (l.dropWhile p).dropWhile p = l.dropWhile p := by
  induction l with
  | nil => rfl
  | cons x xs ih =>
    rw [List.dropWhile_cons]
    split
    · exact ih
    · rename_i h
      rw [List.dropWhile_cons, if_neg h]

theorem head_dropWhile {α} (p : α → Bool) (l : List α) (hd : α)
    (h : (l.dropWhile p).head? = some hd) : p hd = false := by
  induction l with
  | nil => simp at h
  | cons x xs ih =>
    rw [List.dropWhile_cons] at h
    split at h
    · exact ih h
    · rename_i hx
      simp only [List.head?_cons, Option.some.injEq] at h
      subst h
      simpa using hx

/-! ## Lemmas: the freshly written header is detected on a second pass -/

theorem containsSub_TS2 (y : List Char) :
    containsSub "Copyright".toList (TS_HEADER_line2 y) = true := by
  unfold TS_HEADER_line2
  apply containsSub_append
  apply containsSub_append
  apply containsSub_append
  apply containsSub_append
  apply containsSub_append
  decide

theorem containsSub_GO1 (y : List Char) :
    containsSub "Copyright".toList (GO_HEADER_line1 y) = true := by
  unfold GO_HEADER_line1
  apply containsSub_append
  apply containsSub_append
  apply containsSub_append
  apply containsSub_append
  apply containsSub_append
  decide

theorem detect_pass2 (k : FileKind) (y : List Char)
    (rest : List (List Char)) :
    has_copyright_header (headerLines k y ++ ['\n'] :: rest) k.isTS = true := by
  cases k
  · show has_copyright_header (TS_HEADER_line1 :: TS_HEADER_line2 y ::
      TS_HEADER_line3 :: TS_HEADER_line4 :: ['\n'] :: rest) true = true
    have h1 : hasPrefixChars "/*".toList (pyStrip TS_HEADER_line1) = true := by
      decide
    have h2 := containsSub_TS2 y
    have h3 : containsSub "*/".toList TS_HEADER_line4 = true := by decide
    have hlen : (4 : Nat) ≤ rest.length + 5 := by omega
    simp only [has_copyright_header, List.isEmpty_cons, List.length_cons,
      List.take_succ_cons, List.take_zero, List.any_cons, List.any_nil,
      Bool.false_eq_true, if_false]
    split
    · simp only [Bool.and_eq_true, Bool.or_eq_true]
      exact ⟨⟨h1, Or.inr (Or.inl (Or.inl h2))⟩,
        Or.inr (Or.inr (Or.inr (Or.inl h3)))⟩
    · rename_i hcond
      exfalso
      exact hcond (by trivial)
  · show has_copyright_header (GO_HEADER_line1 y :: GO_HEADER_line2 ::
      ['\n'] :: rest) false = true
    have h2 := containsSub_GO1 y
    have hlen : (2 : Nat) ≤ rest.length + 3 := by omega
    simp only [has_copyright_header, List.isEmpty_cons, List.length_cons,
      List.take_succ_cons, List.take_zero, List.any_cons, List.any_nil,
      Bool.false_eq_true, if_false]
    split
    · simp only [Bool.or_eq_true]
      exact Or.inl (Or.inl h2)
    · rename_i hcond
      exfalso
      exact hcond (by trivial)

theorem strippedBody_fix (k : FileKind) (c : List Char) :
    (strippedBody k c).dropWhile blankLine = strippedBody k c := by
  unfold strippedBody
  dsimp only
  exact dropWhile_idem _ _

theorem strippedBody_pass2 (k : FileKind) (y : List Char) (hy : '\n' ∉ y)
    (B : List (List Char)) (hB : validLineList B)
    (hdw : B.dropWhile blankLine = B) :
    strippedBody k (headerFor k y ++ '\n' :: B.flatten) = B := by
  unfold strippedBody
  dsimp only
  rw [splitLines_written k y hy B hB, if_pos (detect_pass2 k y B)]
  cases k
  · show ((TS_HEADER_line1 :: TS_HEADER_line2 y :: TS_HEADER_line3 ::
      TS_HEADER_line4 :: ['\n'] :: B).drop 4).dropWhile blankLine = B
    simp only [List.drop_succ_cons, List.drop_zero]
    rw [List.dropWhile_cons, if_pos (by decide), hdw]
  · show ((GO_HEADER_line1 y :: GO_HEADER_line2 ::
      ['\n'] :: B).drop 2).dropWhile blankLine = B
    simp only [List.drop_succ_cons, List.drop_zero]
    rw [List.dropWhile_cons, if_pos (by decide), hdw]

theorem process_file_pass2 (y p : List Char) (k : FileKind)
    (hk : classifyB p = some k) (hy : '\n' ∉ y) (c : List Char) :
    process_file y p
        (some (headerFor k y ++ '\n' :: (strippedBody k c).flatten)) =
      ⟨some 1, some (headerFor k y ++ '\n' :: (strippedBody k c).flatten),
        [.checking p, .updatingHeader p]⟩ := by
  rw [process_file_target y p _ k hk,
    strippedBody_pass2 k y hy _ (valid_strippedBody k c)
      (strippedBody_fix k c),
    splitLines_written k y hy _ (valid_strippedBody k c),
    if_pos (detect_pass2 k y _)]

/-! ## Helper facts for kind isolation -/

theorem go_out_not_ts (y y' X : List Char) :
    hasPrefixChars (TS_HEADER y') (GO_HEADER y ++ X) = false := by
  simp only [TS_HEADER, TS_HEADER_line1, GO_HEADER, GO_HEADER_line1,
    List.append_assoc]
  simp [hasPrefixChars, (by decide : ('*' == '/') = false)]

theorem ts_out_not_go (y y' X : List Char) :
    hasPrefixChars (GO_HEADER y') (TS_HEADER y ++ X) = false := by
  simp only [TS_HEADER, TS_HEADER_line1, GO_HEADER, GO_HEADER_line1,
    List.append_assoc]
  simp [hasPrefixChars, (by decide : ('/' == '*') = false)]

/-! ## Claim theorems -/

/-- C1: Idempotence of the rewrite.  For every target file, whatever content
`process_file` writes on a first pass (with the computed copyright year for
any current year `cy`) is mapped to itself by a second pass: the written
content is reproduced byte for byte, the second pass still returns `1`, and
the header written by pass 1 is recognised by `has_copyright_header` on
pass 2 (hence replaced rather than duplicated). -/
theorem c1_idempotent (cy : Nat) (p c out : List Char)
    (h : (process_file (COPYRIGHT_YEAR cy) p (some c)).written = some out) :
    (process_file (COPYRIGHT_YEAR cy) p (some out)).written = some out ∧
      (process_file (COPYRIGHT_YEAR cy) p (some out)).ret = some 1 ∧
      ∀ k, classifyB p = some k →
        has_copyright_header (splitLines out) k.isTS = true := by
  cases hk : classifyB p with
  | none =>
    rw [process_file_skip _ _ hk] at h
    exact absurd h (by simp)
  | some k =>
    rw [process_file_target _ _ _ k hk] at h
    simp only [Option.some.injEq] at h
    subst h
    have hy := newline_not_mem_year cy
    rw [process_file_pass2 _ p k hk hy c]
    refine ⟨rfl, rfl, ?_⟩
    intro k' hk'
    injection hk' with hkk
    subst hkk
    rw [splitLines_written k _ hy _ (valid_strippedBody k c)]
    exact detect_pass2 k _ _

/-- Witness for C1 at a concrete Go file. -/
theorem c1_idempotent_witness :
    (process_file (COPYRIGHT_YEAR 2025) "a.go".toList
        (some "package main\n".toList)).written =
      some ("// Copyright (c) 2025, s0up and the autobrr contributors.\n// SPDX-License-Identifier: GPL-2.0-or-later\n\npackage main\n".toList) ∧
    ((process_file (COPYRIGHT_YEAR 2025) "a.go".toList
        (some ("// Copyright (c) 2025, s0up and the autobrr contributors.\n// SPDX-License-Identifier: GPL-2.0-or-later\n\npackage main\n".toList))).written =
      some ("// Copyright (c) 2025, s0up and the autobrr contributors.\n// SPDX-License-Identifier: GPL-2.0-or-later\n\npackage main\n".toList) ∧
      (process_file (COPYRIGHT_YEAR 2025) "a.go".toList
        (some ("// Copyright (c) 2025, s0up and the autobrr contributors.\n// SPDX-License-Identifier: GPL-2.0-or-later\n\npackage main\n".toList))).ret = some 1 ∧
      ∀ k, classifyB "a.go".toList = some k →
        has_copyright_header (splitLines
          ("// Copyright (c) 2025, s0up and the autobrr contributors.\n// SPDX-License-Identifier: GPL-2.0-or-later\n\npackage main\n".toList)) k.isTS = true) :=
  ⟨by decide,
    c1_idempotent 2025 "a.go".toList "package main\n".toList
      ("// Copyright (c) 2025, s0up and the autobrr contributors.\n// SPDX-License-Identifier: GPL-2.0-or-later\n\npackage main\n".toList)
      (by decide)⟩

/-- C4: Output format.  For every successfully processed target file the
rewritten content is exactly the kind's header lines (block kind:
a `/*` line, a ` * Copyright (c) <year>, <holder>.` line, a
` * SPDX-License-Identifier: <license>` line and a ` */` line; line kind:
a `// Copyright (c) <year>, <holder>.` line and a
`// SPDX-License-Identifier: <license>` line), then exactly one blank line,
then the original body — with the first `linesToRemove` lines dropped when a
header was detected and leading whitespace-blank lines removed — written
unchanged, so the line after the single blank line is the first non-blank
original body line (or end of file). -/
theorem c4_output_format (cy : Nat) (p c : List Char) (k : FileKind)
    (hk : classifyB p = some k) :
    (process_file (COPYRIGHT_YEAR cy) p (some c)).written =
        some ((headerLines k (COPYRIGHT_YEAR cy)).flatten ++
          '\n' :: (strippedBody k c).flatten) ∧
      splitLines ((headerLines k (COPYRIGHT_YEAR cy)).flatten ++
          '\n' :: (strippedBody k c).flatten) =
        headerLines k (COPYRIGHT_YEAR cy) ++ ['\n'] :: strippedBody k c ∧
      strippedBody k c =
        (if has_copyright_header (splitLines c) k.isTS then
          (splitLines c).drop (linesToRemove k)
        else splitLines c).dropWhile blankLine ∧
      ∀ hd, (strippedBody k c).head? = some hd → blankLine hd = false := by
  have hy := newline_not_mem_year cy
  refine ⟨?_, ?_, rfl, ?_⟩
  · rw [process_file_target _ _ _ k hk, headerLines_flatten]
  · rw [headerLines_flatten]
    exact splitLines_written k _ hy _ (valid_strippedBody k c)
  · intro hd hhd
    have heq : strippedBody k c =
        (if has_copyright_header (splitLines c) k.isTS then
          (splitLines c).drop (linesToRemove k)
        else splitLines c).dropWhile blankLine := rfl
    rw [heq] at hhd
    exact head_dropWhile _ _ _ hhd

/-- Witness for C4 at a Go file whose body starts with blank lines. -/
theorem c4_output_format_witness :
    (process_file (COPYRIGHT_YEAR 2025) "a.go".toList
        (some "\n\npackage main\n".toList)).written =
      some ((headerLines .go (COPYRIGHT_YEAR 2025)).flatten ++
        '\n' :: (strippedBody .go "\n\npackage main\n".toList).flatten) :=
  (c4_output_format 2025 "a.go".toList "\n\npackage main\n".toList .go
    (by decide)).1

/-- C3 counterexample: with the clock at current year 2024 (which differs
from the start year 2025) the script renders `"2025"`, not the range
`"2025-2024"` the claim requires for every current year different from the
start year. -/
theorem c3_counterexample :
    COPYRIGHT_YEAR 2024 = "2025".toList ∧
      (2024 : Nat) ≠ START_YEAR ∧
      COPYRIGHT_YEAR 2024 ≠ "2025-2024".toList := by decide

/-- C3 amended: the year string is the start year alone whenever the current
year is less than or equal to the start year, and the range
`"start-current"` exactly when the current year is strictly greater. -/
theorem c3_year_amended (cy : Nat) :
    (cy ≤ START_YEAR → COPYRIGHT_YEAR cy = "2025".toList) ∧
      (START_YEAR < cy →
        COPYRIGHT_YEAR cy = "2025-".toList ++ natToChars cy) := by
  constructor
  · intro h
    unfold COPYRIGHT_YEAR
    rw [if_neg (by omega)]
    decide
  · intro h
    unfold COPYRIGHT_YEAR
    rw [if_pos h]
    have hpre : natToChars START_YEAR ++ ['-'] = "2025-".toList := by decide
    rw [← hpre, List.append_assoc]
    rfl

/-- Witness for the amended C3 on both sides of the start year. -/
theorem c3_year_amended_witness :
    COPYRIGHT_YEAR 2024 = "2025".toList ∧
      COPYRIGHT_YEAR 2026 = "2025-".toList ++ natToChars 2026 :=
  ⟨(c3_year_amended 2024).1 (by decide), (c3_year_amended 2026).2 (by decide)⟩

/-- Turning the guarding `if` of a Bool expression into a conjunct. -/
theorem ite_and_false (c : Prop) [Decidable c] (b : Bool) :
    (if c then b else false) = ((if c then true else false) && b) := by
  by_cases h : c
  · rw [if_pos h, if_pos h, Bool.true_and]
  · rw [if_neg h, if_neg h, Bool.false_and]

/-- C2 counterexample: the claim's "case-insensitive substring copyright"
reading is false — the code only matches the exact spellings `Copyright` and
`copyright`, so a two-line Go file whose first line says `COPYRIGHT`
(case-insensitively containing "copyright") is not detected. -/
theorem c2_counterexample :
    has_copyright_header ["// COPYRIGHT\n".toList, "x\n".toList] false =
        false ∧
      2 ≤ (["// COPYRIGHT\n".toList, "x\n".toList] :
        List (List Char)).length ∧
      containsSub "copyright".toList
        (toLowerChars "// COPYRIGHT\n".toList) = true := by decide

/-- C2 amended: `has_copyright_header` agrees exactly with the spec's
characterisation once "case-insensitive substring copyright" is amended to
"contains the substring `Copyright` or `copyright`": block kind iff at least
4 lines, stripped first line starts with `/*`, a copyright line and a `*/`
line among the first 4; line kind iff at least 2 lines and a copyright line
among the first 2; fewer lines than the kind's count (including the empty
file) give `false`. -/
theorem c2_detection_amended (lines : List (List Char)) (k : FileKind) :
    has_copyright_header lines k.isTS = specHasHeader lines k := by
  cases k
  · cases lines with
    | nil => simp [has_copyright_header, specHasHeader]
    | cons l ls =>
      simp only [has_copyright_header, specHasHeader, FileKind.isTS,
        List.isEmpty_cons, Bool.false_eq_true, if_false, if_true]
      rw [ite_and_false]
      simp [Bool.and_assoc]
  · cases lines with
    | nil => simp [has_copyright_header, specHasHeader]
    | cons l ls =>
      simp only [has_copyright_header, specHasHeader, FileKind.isTS,
        List.isEmpty_cons, Bool.false_eq_true, if_false]
      rw [ite_and_false]

/-! ## Lemmas: the full-tree loop -/

/-- A path the extension dispatch accepts. -/
def isTargetB (p : List Char) : Bool := (classifyB p).isSome

theorem pyTruthy_none : pyTruthy none = false := rfl

theorem pyTruthy_zero : pyTruthy (some 0) = false := rfl

theorem pyTruthy_one : pyTruthy (some 1) = true := rfl

theorem mainWalkFull_general (y : List Char)
    (files : List (List Char × Option (List Char))) :
    ∀ (n : Nat) (acc : List (Option (List Char))),
      files.foldl
        (fun acc2 pf =>
          let r := process_file y pf.1 pf.2
          ((if pyTruthy r.ret then acc2.1 + r.ret.getD 0 else acc2.1),
            acc2.2 ++ [r.written]))
        (n, acc) =
      (n + (files.filter (fun pf => isTargetB pf.1 && pf.2.isSome)).length,
        acc ++ files.map (fun pf => (process_file y pf.1 pf.2).written)) := by
  induction files with
  | nil => simp
  | cons pf rest ih =>
    intro n acc
    rcases pf with ⟨p, f⟩
    rw [List.foldl_cons]
    rcases hk : classifyB p with _ | k
    · simp only [process_file_skip y p hk, pyTruthy_none,
        Bool.false_eq_true, if_false]
      rw [ih]
      simp only [List.filter_cons, List.map_cons, isTargetB, hk,
        Option.isSome_none, Bool.false_and, Bool.false_eq_true, if_false,
        List.append_assoc, List.singleton_append,
        process_file_skip y p hk]
    · rcases f with _ | c
      · simp only [process_file_readfail y p k hk, pyTruthy_zero,
          Bool.false_eq_true, if_false]
        rw [ih]
        simp only [List.filter_cons, List.map_cons, isTargetB, hk,
          Option.isSome_some, Option.isSome_none, Bool.true_and,
          Bool.and_false, Bool.false_eq_true, if_false, List.append_assoc,
          List.singleton_append, process_file_readfail y p k hk]
      · simp only [process_file_target y p c k hk, pyTruthy_one, if_true,
          Option.getD_some]
        rw [ih]
        simp only [List.filter_cons, List.map_cons, isTargetB, hk,
          Option.isSome_some, Bool.true_and, Bool.and_self, if_true,
          List.length_cons, List.append_assoc, List.singleton_append,
          process_file_target y p c k hk, Prod.mk.injEq]
        constructor
        · omega
        · trivial

theorem mainWalkFull_count (y : List Char)
    (files : List (List Char × Option (List Char))) :
    (mainWalkFull y files).1 =
      (files.filter (fun pf => isTargetB pf.1 && pf.2.isSome)).length := by
  unfold mainWalkFull
  rw [mainWalkFull_general]
  simp

theorem mainWalkFull_outputs (y : List Char)
    (files : List (List Char × Option (List Char))) :
    (mainWalkFull y files).2 =
      files.map (fun pf => (process_file y pf.1 pf.2).written) := by
  unfold mainWalkFull
  rw [mainWalkFull_general]
  simp

theorem filter_isSome_isNone_length {β α : Type}
    (l : List (β × Option α)) :
    (l.filter (fun pf => pf.2.isSome)).length +
      (l.filter (fun pf => pf.2.isNone)).length = l.length := by
  induction l with
  | nil => rfl
  | cons pf rest ih =>
    rcases pf with ⟨p, f⟩
    cases f <;> simp [List.filter_cons] <;> omega

/-- C5: Error isolation.  An exception while reading/decoding a target file
(the `none` read result) is caught: `process_file` returns `0`, writes
nothing, and reports the failure with the file path; and a full-tree run
over N target files of which exactly one is unreadable counts exactly N − 1
successful updates and terminates normally (the loop is a total function). -/
theorem c5_error_isolation :
    (∀ y p k, classifyB p = some k →
      process_file y p none =
        ⟨some 0, none, [.checking p, .error p]⟩) ∧
    (∀ y files, (∀ pf ∈ files, isTargetB pf.1 = true) →
      (files.filter (fun pf => pf.2.isNone)).length = 1 →
      (mainWalkFull y files).1 = files.length - 1) := by
  refine ⟨fun y p k hk => process_file_readfail y p k hk, ?_⟩
  intro y files hT h1
  rw [mainWalkFull_count]
  have hfil : files.filter (fun pf => isTargetB pf.1 && pf.2.isSome) =
      files.filter (fun pf => pf.2.isSome) :=
    List.filter_congr (fun pf hpf => by rw [hT pf hpf, Bool.true_and])
  rw [hfil]
  have hsum := filter_isSome_isNone_length files
  omega

/-- Witness for C5: two Go files, the second unreadable. -/
theorem c5_error_isolation_witness :
    process_file "2025".toList "a.go".toList none =
      ⟨some 0, none,
        [.checking "a.go".toList, .error "a.go".toList]⟩ ∧
    (mainWalkFull "2025".toList
      [("a.go".toList, some "x\n".toList), ("b.go".toList, none)]).1 = 1 :=
  ⟨c5_error_isolation.1 "2025".toList "a.go".toList .go (by decide),
    c5_error_isolation.2 "2025".toList
      [("a.go".toList, some "x\n".toList), ("b.go".toList, none)]
      (by decide) (by decide)⟩

/-- C7: Kind isolation and non-target framing.  A `.go` path always gets the
Go line-comment header and its output never starts with any TypeScript
block-comment header; a `.ts`/`.tsx` path always gets the block-comment
header and its output never starts with any Go header; and a path of any
other extension is not read, not written, not logged and not counted
(`process_file` returns `None` with no effect, so the file on disk is
unchanged). -/
theorem c7_kind_isolation :
    (∀ y p c, hasSuffixChars ".go".toList p = true →
      ∃ out, (process_file y p (some c)).written = some out ∧
        hasPrefixChars (GO_HEADER y) out = true ∧
        ∀ y', hasPrefixChars (TS_HEADER y') out = false) ∧
    (∀ y p c, (hasSuffixChars ".ts".toList p = true ∨
        hasSuffixChars ".tsx".toList p = true) →
      ∃ out, (process_file y p (some c)).written = some out ∧
        hasPrefixChars (TS_HEADER y) out = true ∧
        ∀ y', hasPrefixChars (GO_HEADER y') out = false) ∧
    (∀ y p f, classifyB p = none →
      process_file y p f = ⟨none, none, []⟩) := by
  refine ⟨?_, ?_, fun y p f hk => process_file_skip y p hk f⟩
  · intro y p c hgo
    have hk := classify_go p hgo
    refine ⟨GO_HEADER y ++ '\n' :: (strippedBody .go c).flatten,
      by rw [process_file_target y p c .go hk]; rfl, ?_, ?_⟩
    · exact hasPrefixChars_self _ _
    · intro y'
      exact go_out_not_ts y y' _
  · intro y p c hts
    have hk := classify_ts p hts
    refine ⟨TS_HEADER y ++ '\n' :: (strippedBody .ts c).flatten,
      by rw [process_file_target y p c .ts hk]; rfl, ?_, ?_⟩
    · exact hasPrefixChars_self _ _
    · intro y'
      exact ts_out_not_go y y' _

/-- Witness for C7 on a Go file, a TypeScript file and a text file. -/
theorem c7_kind_isolation_witness :
    (∃ out, (process_file "2025".toList "a.go".toList
        (some "x\n".toList)).written = some out ∧
      hasPrefixChars (GO_HEADER "2025".toList) out = true ∧
      ∀ y', hasPrefixChars (TS_HEADER y') out = false) ∧
    (∃ out, (process_file "2025".toList "b.ts".toList
        (some "x\n".toList)).written = some out ∧
      hasPrefixChars (TS_HEADER "2025".toList) out = true ∧
      ∀ y', hasPrefixChars (GO_HEADER y') out = false) ∧
    process_file "2025".toList "c.txt".toList (some "x\n".toList) =
      ⟨none, none, []⟩ :=
  ⟨c7_kind_isolation.1 "2025".toList "a.go".toList "x\n".toList (by decide),
    c7_kind_isolation.2.1 "2025".toList "b.ts".toList "x\n".toList
      (Or.inl (by decide)),
    c7_kind_isolation.2.2 "2025".toList "c.txt".toList
      (some "x\n".toList) (by decide)⟩

/-- C9: the single-file status line only distinguishes the truthiness of
`process_file`'s return value: "Successfully updated" is printed iff the
return value is `1`, while both a non-target extension (return `None`) and a
caught per-file error (return `0`) print the same "No update needed" line,
making a failure indistinguishable from a non-target skip there. -/
theorem c9_status_line (y p : List Char) (f : Option (List Char)) :
    (((mainSingle y p f).2 = StatusMsg.successfullyUpdated) ↔
      (process_file y p f).ret = some 1) ∧
    (classifyB p = none →
      (mainSingle y p f).2 = StatusMsg.noUpdateNeeded) ∧
    (∀ k, classifyB p = some k → f = none →
      (mainSingle y p f).2 = StatusMsg.noUpdateNeeded) := by
  rcases hk : classifyB p with _ | k
  · simp [mainSingle, process_file_skip y p hk, pyTruthy]
  · rcases f with _ | c
    · simp [mainSingle, process_file_readfail y p k hk, pyTruthy]
    · simp [mainSingle, process_file_target y p c k hk, pyTruthy]

/-- Witness for C9: the same "No update needed" line for a non-target file
and for an unreadable Go file; the success line for a processed Go file. -/
theorem c9_status_line_witness :
    (mainSingle "2025".toList "a.txt".toList (some "x".toList)).2 =
        StatusMsg.noUpdateNeeded ∧
      (mainSingle "2025".toList "b.go".toList none).2 =
        StatusMsg.noUpdateNeeded ∧
      ((mainSingle "2025".toList "c.go".toList (some "x\n".toList)).2 =
          StatusMsg.successfullyUpdated ↔
        (process_file "2025".toList "c.go".toList
          (some "x\n".toList)).ret = some 1) :=
  ⟨(c9_status_line "2025".toList "a.txt".toList (some "x".toList)).2.1
      (by decide),
    (c9_status_line "2025".toList "b.go".toList none).2.2 .go (by decide)
      rfl,
    (c9_status_line "2025".toList "c.go".toList (some "x\n".toList)).1⟩

/-! ## Lemmas: traversal pruning -/

theorem contains_iff_mem_chars (l : List (List Char)) (a : List Char) :
    l.contains a = true ↔ a ∈ l := List.elem_iff

theorem walkSubdirs_chains (l : List (List Char × DirTree)) :
    ∀ cf ∈ walkSubdirs l, ∀ d ∈ cf.1, d ∉ EXCLUDED_DIRS := by
  induction l using walkSubdirs.induct with
  | case1 => simp [walkSubdirs]
  | case2 name sd fs rest ih2 ih1 =>
    intro cf hcf d hd
    rw [walkSubdirs] at hcf
    rcases List.mem_append.mp hcf with h | h
    · split at h
      · simp at h
      · rename_i hname
        have hnm : name ∉ EXCLUDED_DIRS := fun hmem =>
          hname ((contains_iff_mem_chars _ _).mpr hmem)
        rcases List.mem_append.mp h with h2 | h2
        · obtain ⟨f, -, heq⟩ := List.mem_map.mp h2
          rw [← heq] at hd
          simp only [List.mem_singleton] at hd
          exact hd ▸ hnm
        · obtain ⟨cf', hcf', heq⟩ := List.mem_map.mp h2
          rw [← heq] at hd
          rcases List.mem_cons.mp hd with rfl | hd'
          · exact hnm
          · exact ih2 cf' hcf' d hd'
    · exact ih1 cf h d hd

/-- C6: Directory exclusion.  In full-tree mode a file reached only through
a traversed directory whose name is `.git`, `node_modules`, `dist`, `build`
or `vendor` — at any depth below the traversal root — is never visited by
the walk (hence never passed to `process_file` and never modified). -/
theorem c6_exclusion (t : DirTree) (chain : List (List Char))
    (fname d : List Char) (hd : d ∈ chain) (hex : d ∈ EXCLUDED_DIRS) :
    (chain, fname) ∉ walkVisited t := by
  intro hmem
  rcases t with ⟨sd, fs⟩
  unfold walkVisited at hmem
  rcases List.mem_append.mp hmem with h | h
  · obtain ⟨f, -, heq⟩ := List.mem_map.mp h
    have : chain = [] := (Prod.mk.injEq _ _ _ _ ▸ heq).1.symm
    rw [this] at hd
    simp at hd
  · exact walkSubdirs_chains sd _ h d hd hex

/-- Witness for C6: a `.go` file inside a `.git` directory is not visited. -/
theorem c6_exclusion_witness :
    ([".git".toList], "a.go".toList) ∉
      walkVisited (.node
        [(".git".toList, .node [] ["a.go".toList])] []) :=
  c6_exclusion _ [".git".toList] "a.go".toList ".git".toList (by decide)
    (by decide)

/-- C8: In single-file mode the exclusion set is never consulted: a file
passed explicitly whose path runs through `.git`, `node_modules`, `dist`,
`build` or `vendor` is classified by its extension and rewritten exactly
like the same file outside those directories, and reported as successfully
updated. -/
theorem c8_single_file_excluded_path (y : List Char)
    (chain : List (List Char)) (fname c : List Char) (k : FileKind)
    (_hex : ∃ d ∈ chain, d ∈ EXCLUDED_DIRS)
    (hk : classifyB fname = some k) :
    (mainSingle y (joinChain chain fname) (some c)).1.ret = some 1 ∧
      (mainSingle y (joinChain chain fname) (some c)).1.written =
        (process_file y fname (some c)).written ∧
      (mainSingle y (joinChain chain fname) (some c)).2 =
        StatusMsg.successfullyUpdated := by
  have hk' : classifyB (joinChain chain fname) = some k := by
    unfold joinChain
    exact classify_append _ _ k hk
  unfold mainSingle
  rw [process_file_target y _ c k hk', process_file_target y fname c k hk]
  exact ⟨rfl, rfl, rfl⟩

/-- Witness for C8: `.git/a.go` passed explicitly is rewritten. -/
theorem c8_single_file_excluded_path_witness :
    (mainSingle "2025".toList
        (joinChain [".git".toList] "a.go".toList)
        (some "x\n".toList)).1.ret = some 1 ∧
      (mainSingle "2025".toList
          (joinChain [".git".toList] "a.go".toList)
          (some "x\n".toList)).1.written =
        (process_file "2025".toList "a.go".toList
          (some "x\n".toList)).written ∧
      (mainSingle "2025".toList
          (joinChain [".git".toList] "a.go".toList)
          (some "x\n".toList)).2 = StatusMsg.successfullyUpdated :=
  c8_single_file_excluded_path "2025".toList [".git".toList]
    "a.go".toList "x\n".toList .go (by decide) (by decide)

/-- C10: `process_file` is deterministic and file-local.  With the run
constants fixed, its return value and the content it writes depend only on
the file's read content and on its extension kind (two paths with the same
classification get identical results); and the full-tree loop's disk
effects are exactly the independent per-file results in order — the only
state threaded between files is the integer counter, which never influences
any written content. -/
theorem c10_file_local (y : List Char) :
    (∀ p p' f, classifyB p = classifyB p' →
      (process_file y p f).ret = (process_file y p' f).ret ∧
        (process_file y p f).written = (process_file y p' f).written) ∧
    (∀ files, (mainWalkFull y files).2 =
      files.map (fun pf => (process_file y pf.1 pf.2).written)) := by
  refine ⟨?_, mainWalkFull_outputs y⟩
  intro p p' f hpp
  rcases hk : classifyB p with _ | k
  · rw [process_file_skip y p hk, process_file_skip y p' (hpp.symm.trans hk)]
    exact ⟨rfl, rfl⟩
  · have hk' : classifyB p' = some k := hpp.symm.trans hk
    rcases f with _ | c
    · rw [process_file_readfail y p k hk, process_file_readfail y p' k hk']
      exact ⟨rfl, rfl⟩
    · rw [process_file_target y p c k hk, process_file_target y p' c k hk']
      exact ⟨rfl, rfl⟩

/-- Witness for C10: two differently named Go files get identical results. -/
theorem c10_file_local_witness :
    ((process_file "2025".toList "a.go".toList
        (some "x\n".toList)).ret =
      (process_file "2025".toList "b/c.go".toList
        (some "x\n".toList)).ret ∧
      (process_file "2025".toList "a.go".toList
          (some "x\n".toList)).written =
        (process_file "2025".toList "b/c.go".toList
          (some "x\n".toList)).written) ∧
      (mainWalkFull "2025".toList
          [("a.go".toList, some "x\n".toList)]).2 =
        [("a.go".toList, some "x\n".toList)].map
          (fun pf => (process_file "2025".toList pf.1 pf.2).written) :=
  ⟨(c10_file_local "2025".toList).1 "a.go".toList "b/c.go".toList
      (some "x\n".toList) (by decide),
    (c10_file_local "2025".toList).2
      [("a.go".toList, some "x\n".toList)]⟩
